import Mathlib

/-!
Verification of the gell-launcher application search and catalog core
(`src/dmenu.py`): the fuzzy scoring function `fuzzy_match`, the desktop-file
catalog loader `get_desktop_files`, the one-hour catalog cache
`get_desktop_files_cached`, the ranking pass `on_input_changed`, the launch
command cleaning in `DesktopEntry.launch`, and the guarded
`launch_selected_app` index access.

Python strings are modelled as Lean `String`s, with the Python operations
(`str.lower`, `in`/`find` substring search, `<=` comparison, `split`/`strip`)
embedded as structurally recursive functions over `List Char` so that every
definition evaluates by kernel reduction.  Python `int` is `Int` (scores can
go negative via `2000 - index`), loop state is passed explicitly, and
exception-raising paths are `Option`-valued.
-/

namespace Gell

/-! ### Python string primitives over `List Char` -/

/-- Python `s.lower()` on the character sequence (ASCII case folding, which is
what `Char.toLower` performs and what all descriptor names exercise). -/
def lowerData (s : String) : List Char := s.data.map Char.toLower

/-- `leadsWith q t` holds when `q` is a leading segment of `t`
(the primitive beneath Python substring search). -/
def leadsWith : List Char → List Char → Bool
  | [], _ => true
  | _ :: _, [] => false
  | a :: as, b :: bs => a == b && leadsWith as bs

/-- Python `t.find(q)` combined with the `q in t` membership test:
`some i` is the index of the first occurrence of `q` in `t`,
`none` means `q` does not occur contiguously in `t`. -/
def findSub (q : List Char) : List Char → Option Nat
  | [] => if leadsWith q [] then some 0 else none
  | c :: t => if leadsWith q (c :: t) then some 0 else (findSub q t).map (· + 1)

/-- Python string `<=` (lexicographic comparison by code point). -/
def charListLe : List Char → List Char → Bool
  | [], _ => true
  | _ :: _, [] => false
  | a :: as, b :: bs => if a = b then charListLe as bs else decide (a < b)

/-! ### `fuzzy_match` (src/dmenu.py lines 66-90) -/

/-- The scan loop of `fuzzy_match`: walk the text characters once, consuming
query characters in order; state is `(query_idx, score, consecutive)`, and
each consumed character adds `10 + consecutive * 5` after incrementing
`consecutive`; a non-matching character resets `consecutive` to `0`.
Returns the final `(query_idx, score)`. -/
def fuzzyLoop (q : List Char) : List Char → Nat → Nat → Nat → Nat × Nat
  | [], qi, sc, _ => (qi, sc)
  | c :: t, qi, sc, consec =>
    if q.get? qi = some c then
      fuzzyLoop q t (qi + 1) (sc + (10 + (consec + 1) * 5)) (consec + 1)
    else
      fuzzyLoop q t qi sc 0

/-- `fuzzy_match(query, text)` from src/dmenu.py: empty query always matches
with score 0; a contiguous occurrence of the lowercased query in the
lowercased text scores `2000 - first_index`; otherwise the scan loop runs and
the result is `(all query characters consumed, accumulated score)`. -/
def fuzzy_match (query text : String) : Bool × Int :=
  if query = "" then (true, 0)
  else
    match findSub (lowerData query) (lowerData text) with
    | some i => (true, 2000 - (i : Int))
    | none =>
      let r := fuzzyLoop (lowerData query) (lowerData text) 0 0 0
      (r.1 == (lowerData query).length, (r.2 : Int))

/-! ### Desktop entries and the catalog loader (src/dmenu.py lines 18-115) -/

/-- A parsed `DesktopEntry`: the four fields `_parse` fills in. -/
structure DEntry where
  name : String
  exec_cmd : String
  icon : String
  terminal : Bool
deriving DecidableEq

/-- One `.desktop` descriptor file as seen by `DesktopEntry._parse` through
`ConfigParser`: whether `config.read` raises, whether the `[Desktop Entry]`
section exists, and the raw string values of the keys `_parse` consults
(`none` = key absent). -/
structure DesktopFile where
  readFails : Bool
  hasSection : Bool
  noDisplayVal : Option String
  hiddenVal : Option String
  nameVal : Option String
  execVal : Option String
  iconVal : Option String
  terminalVal : Option String
deriving DecidableEq

/-- `ConfigParser.BOOLEAN_STATES` lookup on `value.lower()`:
`some b` on a recognised boolean literal, `none` models the `ValueError`
that `getboolean` raises on anything else. -/
def parseBoolVal (s : String) : Option Bool :=
  let l := String.mk (lowerData s)
  if l = "1" ∨ l = "yes" ∨ l = "true" ∨ l = "on" then some true
  else if l = "0" ∨ l = "no" ∨ l = "false" ∨ l = "off" then some false
  else none

/-- `section.getboolean(key, default)`: absent key gives the default,
present key parses its value (raising on garbage, modelled as `none`). -/
def getboolean (v : Option String) (dflt : Bool) : Option Bool :=
  match v with
  | none => some dflt
  | some s => parseBoolVal s

/-- The field values a `DesktopEntry` holds right after `__init__` when
`_parse` returned early (read failure, missing section, or hidden flags). -/
def emptyEntry : DEntry := ⟨"", "", "", false⟩

/-- `DesktopEntry._parse` (src/dmenu.py lines 28-46), read off the control
flow: a `config.read` failure or missing `Desktop Entry` section returns
early with the empty fields; `NoDisplay`/`Hidden` are then tested with
short-circuit `or`, a true flag returns early with empty fields; finally the
four fields are read with their defaults.  `none` models a `ValueError`
escaping `__init__` (invalid boolean literal). -/
def DesktopEntry_parse (f : DesktopFile) : Option DEntry :=
  if f.readFails then some emptyEntry
  else if !f.hasSection then some emptyEntry
  else
    match getboolean f.noDisplayVal false with
    | none => none
    | some true => some emptyEntry
    | some false =>
      match getboolean f.hiddenVal false with
      | none => none
      | some true => some emptyEntry
      | some false =>
        match getboolean f.terminalVal false with
        | none => none
        | some term =>
          some ⟨f.nameVal.getD "", f.execVal.getD "", f.iconVal.getD "", term⟩

/-- One iteration of the scan loop in `get_desktop_files` (lines 105-112):
the accumulator is `(apps, seen_names)`; a file whose construction raises is
skipped, an entry is appended only when its name and command are non-empty
(Python truthiness) and its exact name is not yet in `seen_names`. -/
def scanStep (acc : List DEntry × List String) (f : DesktopFile) :
    List DEntry × List String :=
  match DesktopEntry_parse f with
  | none => acc
  | some e =>
    if e.name ≠ "" ∧ e.exec_cmd ≠ "" ∧ e.name ∉ acc.2 then
      (acc.1 ++ [e], e.name :: acc.2)
    else acc

/-- The sort key relation of `apps.sort(key=lambda x: x.name.lower())`. -/
def nameKeyLe (a b : DEntry) : Prop :=
  charListLe (lowerData a.name) (lowerData b.name) = true

instance : DecidableRel nameKeyLe := fun a b => by
  unfold nameKeyLe
  infer_instance

/-- `get_desktop_files` (src/dmenu.py lines 93-115) over the flattened,
priority-ordered sequence of descriptor files produced by globbing the three
directories in order: fold the scan loop, then sort by lowercased name
ascending (Python `list.sort` is stable; insertion sort with this relation
realises the same stable ascending order). -/
def get_desktop_files (files : List DesktopFile) : List DEntry :=
  List.insertionSort nameKeyLe (files.foldl scanStep ([], [])).1

/-- Per-file admission as the spec words it: a file contributes a candidate
entry when it parses without raising and has non-empty name and command.
Used to state the dedup behaviour of the scan. -/
def validEntry (f : DesktopFile) : Option DEntry :=
  match DesktopEntry_parse f with
  | none => none
  | some e => if e.name ≠ "" ∧ e.exec_cmd ≠ "" then some e else none

/-- First-seen-wins deduplication keyed on the exact `name` string, given the
set of names already seen. -/
def dedupFirst : List DEntry → List String → List DEntry
  | [], _ => []
  | e :: es, seen =>
    if e.name ∈ seen then dedupFirst es seen
    else e :: dedupFirst es (e.name :: seen)

/-! ### The catalog cache (src/dmenu.py lines 118-136) -/

/-- The environment `get_desktop_files_cached` runs in: whether the cache
file exists, the wall clock and the file's mtime (seconds), the outcome of
opening-and-unpickling it (`none` = any exception), the catalog a fresh scan
would produce, and whether the cache write succeeds. -/
structure CacheEnv where
  cacheExists : Bool
  now : Int
  mtime : Int
  readResult : Option (List DEntry)
  loaded : List DEntry
  writeOk : Bool
deriving DecidableEq

/-- Observable outcome of `get_desktop_files_cached`: the returned catalog,
whether the loader (`get_desktop_files`) ran, and whether a cache file was
written. -/
structure CacheOutcome where
  result : List DEntry
  loaderInvoked : Bool
  cacheWritten : Bool
deriving DecidableEq

/-- `get_desktop_files_cached`: when the cache file exists, is strictly
younger than 3600 seconds, and unpickles, return its content; on any other
path fall through to the loader, attempt the write (failures swallowed), and
return the fresh catalog. -/
def get_desktop_files_cached (env : CacheEnv) : CacheOutcome :=
  let miss : CacheOutcome := ⟨env.loaded, true, env.writeOk⟩
  if env.cacheExists then
    if env.now - env.mtime < 3600 then
      match env.readResult with
      | some apps => ⟨apps, false, false⟩
      | none => miss
    else miss
  else miss

/-! ### Launch command cleaning (src/dmenu.py lines 48-63) -/

/-- Python `s.split('%')[0]`: the segment before the first `'%'`
(the whole string when no `'%'` occurs). -/
def takeUntilPercent : List Char → List Char
  | [] => []
  | c :: t => if c = '%' then [] else c :: takeUntilPercent t

/-- Python `s.strip()`: drop whitespace from both ends. -/
def stripEnds (l : List Char) : List Char :=
  ((l.dropWhile Char.isWhitespace).reverse.dropWhile Char.isWhitespace).reverse

/-- The command string `DesktopEntry.launch` hands to `subprocess.Popen`:
`self.exec_cmd.split('%')[0].strip()`. -/
def launch_cmd (cmd : String) : String :=
  String.mk (stripEnds (takeUntilPercent cmd.data))

/-- `DesktopEntry.launch`: no spawn on an empty command, otherwise spawn the
cleaned command (the spawned command is the observable we model). -/
def launch (e : DEntry) : Option String :=
  if e.exec_cmd = "" then none else some (launch_cmd e.exec_cmd)

/-! ### The ranking pass and guarded launch (src/dmenu.py lines 173-194) -/

/-- The boolean component of `fuzzy_match` against an entry's name. -/
def matchesQ (v : String) (a : DEntry) : Bool := (fuzzy_match v a.name).1

/-- The score component of `fuzzy_match` against an entry's name. -/
def scoreOf (v : String) (a : DEntry) : Int := (fuzzy_match v a.name).2

/-- The ordering realised by `sorted(..., key=score, reverse=True)`:
`a` may precede `b` when `a`'s score is at least `b`'s. -/
def scoreGe (v : String) (a b : DEntry) : Prop := scoreOf v b ≤ scoreOf v a

instance (v : String) : DecidableRel (scoreGe v) := fun a b => by
  unfold scoreGe
  infer_instance

/-- `AppLauncherPanel.on_input_changed`: empty query restores the full
catalog; otherwise keep the entries whose name matches and stable-sort them
by score descending (Python `sorted` with `reverse=True` is stable;
insertion sort with `scoreGe` realises the same order). -/
def on_input_changed (v : String) (apps : List DEntry) : List DEntry :=
  if v = "" then apps
  else List.insertionSort (scoreGe v) (List.filter (matchesQ v) apps)

/-- `AppLauncherPanel.launch_selected_app`: the returned boolean together
with the entry `launch()` is invoked on (`none` = nothing launched).
The index is a Python `int`, hence `Int`. -/
def launch_selected_app (apps : List DEntry) (index : Int) :
    Bool × Option DEntry :=
  if apps ≠ [] ∧ 0 ≤ index ∧ index < (apps.length : Int) then
    (true, apps.get? index.toNat)
  else (false, none)

/-! ### Lemmas about the fuzzy scan loop -/

theorem leadsWith_sublist : ∀ {q t : List Char}, leadsWith q t = true → q.Sublist t
  | [], _, _ => List.nil_sublist _
  | _ :: _, [], h => by simp [leadsWith] at h
  | a :: as, b :: bs, h => by
    simp only [leadsWith, Bool.and_eq_true, beq_iff_eq] at h
    exact h.1 ▸ List.cons_sublist_cons.mpr (leadsWith_sublist h.2)

theorem findSub_sublist {q : List Char} :
    ∀ {t : List Char} {i : Nat}, findSub q t = some i → q.Sublist t := by
  intro t
  induction t with
  | nil =>
    intro i h
    simp only [findSub] at h
    split at h
    · exact leadsWith_sublist (by assumption)
    · exact absurd h (by simp)
  | cons c t ih =>
    intro i h
    simp only [findSub] at h
    split at h
    · exact leadsWith_sublist (by assumption)
    · rcases Option.map_eq_some'.mp h with ⟨j, hj, _⟩
      exact (ih hj).cons c

theorem fuzzyLoop_fst_le (q : List Char) :
    ∀ (t : List Char) (qi sc consec : Nat), qi ≤ q.length →
      (fuzzyLoop q t qi sc consec).1 ≤ q.length := by
  intro t
  induction t with
  | nil => intro qi sc consec h; simpa [fuzzyLoop] using h
  | cons c t ih =>
    intro qi sc consec h
    simp only [fuzzyLoop]
    split
    · rename_i hget
      have : qi < q.length := List.get?_eq_some.mp hget |>.1
      exact ih _ _ _ this
    · exact ih _ _ _ h

theorem fuzzyLoop_sublist (q : List Char) :
    ∀ (t : List Char) (qi sc consec : Nat),
      (fuzzyLoop q t qi sc consec).1 = q.length → (q.drop qi).Sublist t := by
  intro t
  induction t with
  | nil =>
    intro qi sc consec h
    simp only [fuzzyLoop] at h
    subst h
    simp
  | cons c t ih =>
    intro qi sc consec h
    simp only [fuzzyLoop] at h
    split at h
    · rename_i hget
      obtain ⟨hlt, hq⟩ := List.get?_eq_some.mp hget
      have hdrop : q.drop qi = c :: q.drop (qi + 1) := by
        rw [List.drop_eq_getElem_cons hlt]
        simp [← hq, List.get_eq_getElem]
      rw [hdrop]
      exact List.cons_sublist_cons.mpr (ih _ _ _ h)
    · exact (ih _ _ _ h).cons c

theorem fuzzyLoop_score_aux (sc qi consec : Nat) (h1 : consec ≤ qi)
    (h2 : 2 * sc ≤ 20 * qi + 5 * (qi * (qi + 1))) :
    2 * (sc + (10 + (consec + 1) * 5)) ≤
      20 * (qi + 1) + 5 * ((qi + 1) * (qi + 1 + 1)) := by nlinarith

theorem fuzzyLoop_score_bound (q : List Char) :
    ∀ (t : List Char) (qi sc consec : Nat), consec ≤ qi →
      2 * sc ≤ 20 * qi + 5 * (qi * (qi + 1)) →
      2 * (fuzzyLoop q t qi sc consec).2 ≤
        20 * (fuzzyLoop q t qi sc consec).1 +
          5 * ((fuzzyLoop q t qi sc consec).1 * ((fuzzyLoop q t qi sc consec).1 + 1)) := by
  intro t
  induction t with
  | nil => intro qi sc consec h1 h2; simpa [fuzzyLoop] using h2
  | cons c t ih =>
    intro qi sc consec h1 h2
    simp only [fuzzyLoop]
    split
    · exact ih _ _ _ (by omega) (fuzzyLoop_score_aux sc qi consec h1 h2)
    · exact ih _ _ _ (Nat.zero_le qi) h2

theorem scoreBound_mono {a b : Nat} (h : a ≤ b) :
    20 * a + 5 * (a * (a + 1)) ≤ 20 * b + 5 * (b * (b + 1)) := by nlinarith

/-- Any score the fuzzy fallback path can return is at most
`(20 m + 5 m (m+1)) / 2` where `m` is the query length. -/
theorem fuzzy_path_score_bound (q t : List Char) :
    2 * (fuzzyLoop q t 0 0 0).2 ≤ 20 * q.length + 5 * (q.length * (q.length + 1)) := by
  have h1 := fuzzyLoop_score_bound q t 0 0 0 (Nat.le_refl 0) (by omega)
  have h2 := fuzzyLoop_fst_le q t 0 0 0 (Nat.zero_le _)
  exact h1.trans (scoreBound_mono h2)

theorem fuzzy_match_substring {q t : String} {i : Nat} (hq : q ≠ "")
    (h : findSub (lowerData q) (lowerData t) = some i) :
    fuzzy_match q t = (true, 2000 - (i : Int)) := by
  simp [fuzzy_match, hq, h]

theorem fuzzy_match_fuzzy {q t : String} (hq : q ≠ "")
    (h : findSub (lowerData q) (lowerData t) = none) :
    fuzzy_match q t =
      ((fuzzyLoop (lowerData q) (lowerData t) 0 0 0).1 == (lowerData q).length,
        ((fuzzyLoop (lowerData q) (lowerData t) 0 0 0).2 : Int)) := by
  simp [fuzzy_match, hq, h]

/-! ### Claim C1 -/

/-- A query for which the fuzzy path overtakes the substring path: the query
`a^27 b` matched against itself (substring at index 0, score 2000) versus
against `a^27 x b` (fuzzy only, score 2175). -/
def qLong : String := String.mk (List.replicate 27 'a' ++ ['b'])

/-- The fuzzy-only candidate for `qLong`. -/
def tFuz : String := String.mk (List.replicate 27 'a' ++ ['x', 'b'])

/-- **C1, counterexample.** The claim "substring matches always outscore
fuzzy matches" fails: for the 28-character query `qLong`, the candidate
`qLong` itself is a substring match (index 0, score 2000) while `tFuz` is
only a fuzzy match, yet the fuzzy candidate scores strictly higher (2175). -/
theorem C1_counterexample :
    findSub (lowerData qLong) (lowerData qLong) = some 0
    ∧ findSub (lowerData qLong) (lowerData tFuz) = none
    ∧ (fuzzy_match qLong tFuz).1 = true
    ∧ (fuzzy_match qLong qLong).2 < (fuzzy_match qLong tFuz).2 := by decide

/-- **C1, amended.** A substring match outscores a fuzzy-only match whenever
`2000 - index` exceeds the fuzzy path's score ceiling
`(20 m + 5 m (m+1)) / 2` for query length `m` (stated doubled to stay in
integers); without that bound the claim fails (`C1_counterexample`).  The
second half of the claim is unconditional: among substring matches of the
same query, an occurrence at index 0 strictly outscores any occurrence at an
index greater than 0. -/
theorem C1_substring_fuzzy_ordering :
    (∀ (q t1 t2 : String) (i : Nat), q ≠ "" →
      findSub (lowerData q) (lowerData t1) = some i →
      findSub (lowerData q) (lowerData t2) = none →
      (fuzzy_match q t2).1 = true →
      ((20 * (lowerData q).length +
        5 * ((lowerData q).length * ((lowerData q).length + 1)) : Nat) : Int) <
        2 * (2000 - (i : Int)) →
      (fuzzy_match q t2).2 < (fuzzy_match q t1).2)
    ∧ (∀ (q t1 t2 : String) (j : Nat), q ≠ "" →
      findSub (lowerData q) (lowerData t1) = some 0 →
      findSub (lowerData q) (lowerData t2) = some (j + 1) →
      (fuzzy_match q t2).2 < (fuzzy_match q t1).2) := by
  constructor
  · intro q t1 t2 i hq h1 h2 _ hbound
    rw [fuzzy_match_substring hq h1, fuzzy_match_fuzzy hq h2]
    have hb := fuzzy_path_score_bound (lowerData q) (lowerData t2)
    have hb' : ((2 * (fuzzyLoop (lowerData q) (lowerData t2) 0 0 0).2 : Nat) : Int) ≤
        ((20 * (lowerData q).length +
          5 * ((lowerData q).length * ((lowerData q).length + 1)) : Nat) : Int) :=
      Nat.cast_le.mpr hb
    push_cast at hb' hbound
    push_cast
    linarith
  · intro q t1 t2 j hq h1 h2
    rw [fuzzy_match_substring hq h1, fuzzy_match_substring hq h2]
    push_cast
    omega

/-- Witness for `C1_substring_fuzzy_ordering` at concrete inputs: query
`"fi"`, substring candidate `"Firefox"` (index 0), fuzzy-only candidate
`"fxi"`, and late-substring candidate `"xfi"` (index 1). -/
theorem C1_witness :
    (fuzzy_match "fi" "fxi").2 < (fuzzy_match "fi" "Firefox").2
    ∧ (fuzzy_match "fi" "xfi").2 < (fuzzy_match "fi" "Firefox").2 :=
  ⟨C1_substring_fuzzy_ordering.1 "fi" "Firefox" "fxi" 0 (by decide) (by decide)
      (by decide) (by decide) (by decide),
    C1_substring_fuzzy_ordering.2 "fi" "Firefox" "xfi" 0 (by decide) (by decide)
      (by decide)⟩

/-! ### Claim C2 -/

/-- **C2, counterexample.** `match("xyz","Firefox")` does not return
`(false, 0)`: the partially accumulated fuzzy score is kept, so it returns
`(false, 15)` (the lone `x` consumed contributes `10 + 1*5`). -/
theorem C2_counterexample :
    fuzzy_match "xyz" "Firefox" = (false, 15)
    ∧ fuzzy_match "xyz" "Firefox" ≠ (false, 0) := by decide

/-- **C2, amended.** For a non-empty query whose lowercased characters are
not a subsequence of the lowercased candidate, `fuzzy_match` reports no
match, but the returned score is the accumulated score of the scan loop
(not necessarily 0). -/
theorem C2_no_subsequence_no_match :
    ∀ (q t : String), q ≠ "" → ¬ (lowerData q).Sublist (lowerData t) →
      (fuzzy_match q t).1 = false
      ∧ (fuzzy_match q t).2 =
          ((fuzzyLoop (lowerData q) (lowerData t) 0 0 0).2 : Int) := by
  intro q t hq hsub
  have hfind : findSub (lowerData q) (lowerData t) = none := by
    cases hf : findSub (lowerData q) (lowerData t) with
    | none => rfl
    | some i => exact absurd (findSub_sublist hf) hsub
  rw [fuzzy_match_fuzzy hq hfind]
  refine ⟨?_, rfl⟩
  cases hbeq : ((fuzzyLoop (lowerData q) (lowerData t) 0 0 0).1 ==
      (lowerData q).length) with
  | false => rfl
  | true =>
    have hs := fuzzyLoop_sublist (lowerData q) (lowerData t) 0 0 0
      (beq_iff_eq.mp hbeq)
    rw [List.drop_zero] at hs
    exact absurd hs hsub

/-- Witness for `C2_no_subsequence_no_match` at `("xyz", "Firefox")`. -/
theorem C2_witness :
    (fuzzy_match "xyz" "Firefox").1 = false
    ∧ (fuzzy_match "xyz" "Firefox").2 =
        ((fuzzyLoop (lowerData "xyz") (lowerData "Firefox") 0 0 0).2 : Int) :=
  C2_no_subsequence_no_match "xyz" "Firefox" (by decide) (by decide)

/-! ### Claim C4 -/

theorem chain'_of_forall {α : Type} {R : α → α → Prop} (h : ∀ a b, R a b) :
    ∀ l : List α, l.Chain' R
  | [] => List.chain'_nil
  | [a] => List.chain'_singleton a
  | a :: b :: l => List.chain'_cons.mpr ⟨h a b, chain'_of_forall h (b :: l)⟩

instance (v : String) : IsTotal DEntry (scoreGe v) :=
  ⟨fun a b => le_total (scoreOf v b) (scoreOf v a)⟩

instance (v : String) : IsTrans DEntry (scoreGe v) :=
  ⟨fun _ _ _ hab hbc => le_trans hbc hab⟩

/-- Inserting an entry into a list never disturbs, and is never placed left
of, entries of the same score: the score-`s` sublist is as if the entry were
prepended. -/
theorem filter_score_orderedInsert (v : String) (s : Int) (a : DEntry) :
    ∀ l : List DEntry,
      List.filter (fun x => scoreOf v x == s) (List.orderedInsert (scoreGe v) a l)
        = List.filter (fun x => scoreOf v x == s) (a :: l) := by
  intro l
  induction l with
  | nil => rfl
  | cons b l ih =>
    simp only [List.orderedInsert]
    split
    · rfl
    · rename_i hnot
      have hlt : scoreOf v a < scoreOf v b := lt_of_not_le hnot
      by_cases hb : (scoreOf v b == s) = true
      · have hbs : scoreOf v b = s := beq_iff_eq.mp hb
        have ha : (scoreOf v a == s) = false := by
          refine beq_eq_false_iff_ne.mpr ?_
          intro has
          rw [has, ← hbs] at hlt
          exact lt_irrefl _ hlt
        simp only [List.filter_cons, hb, ha, if_true, if_false, ih,
          Bool.false_eq_true, ite_false, ite_true]
      · simp only [List.filter_cons, hb, ih, Bool.false_eq_true, ite_false]

/-- Filtering by a fixed score commutes with the descending insertion sort:
equal-score entries are never reordered (stability). -/
theorem filter_score_insertionSort (v : String) (s : Int) :
    ∀ l : List DEntry,
      List.filter (fun x => scoreOf v x == s) (List.insertionSort (scoreGe v) l)
        = List.filter (fun x => scoreOf v x == s) l := by
  intro l
  induction l with
  | nil => rfl
  | cons a l ih =>
    simp only [List.insertionSort, filter_score_orderedInsert, List.filter_cons, ih]

/-- **C4.** The ranking pass keeps exactly the matching entries (it is a
permutation of the match filter), its output is sorted by score descending
(each adjacent pair satisfies `scoreGe`), and it is stable: for every score
`s`, the entries of score `s` appear in exactly the order they had in the
input catalog's match filter. -/
theorem C4_ranking_stable (v : String) (apps : List DEntry) :
    (on_input_changed v apps).Perm (List.filter (matchesQ v) apps)
    ∧ List.Chain' (scoreGe v) (on_input_changed v apps)
    ∧ ∀ s : Int,
        List.filter (fun a => scoreOf v a == s) (on_input_changed v apps)
          = List.filter (fun a => scoreOf v a == s) (List.filter (matchesQ v) apps) := by
  by_cases hv : v = ""
  · subst hv
    have hfilter : List.filter (matchesQ "") apps = apps :=
      List.filter_eq_self.mpr (fun a _ => rfl)
    unfold on_input_changed
    simp only [if_pos rfl, hfilter]
    refine ⟨List.Perm.refl _, ?_, fun s => rfl⟩
    exact chain'_of_forall (fun a b => le_refl (0 : Int)) apps
  · unfold on_input_changed
    simp only [if_neg hv]
    refine ⟨List.perm_insertionSort _ _, ?_, fun s => filter_score_insertionSort v s _⟩
    exact List.Pairwise.chain' (List.sorted_insertionSort _ _)

/-! ### Lemmas about the loader's sort relation -/

theorem charListLe_total : ∀ x y : List Char, charListLe x y = true ∨ charListLe y x = true
  | [], _ => Or.inl rfl
  | _ :: _, [] => Or.inr rfl
  | a :: as, b :: bs => by
    by_cases hab : a = b
    · subst hab
      simp only [charListLe, if_pos rfl]
      exact charListLe_total as bs
    · have hba : b ≠ a := fun h => hab h.symm
      rcases lt_or_gt_of_ne hab with h | h
      · left
        simp [charListLe, hab, h]
      · right
        simp [charListLe, hba, h]

theorem charListLe_trans :
    ∀ x y z : List Char,
      charListLe x y = true → charListLe y z = true → charListLe x z = true := by
  intro x
  induction x with
  | nil => intro y z _ _; rfl
  | cons a as ih =>
    intro y z h1 h2
    cases y with
    | nil => simp [charListLe] at h1
    | cons b bs =>
      cases z with
      | nil => simp [charListLe] at h2
      | cons c cs =>
        simp only [charListLe] at h1 h2 ⊢
        by_cases hab : a = b
        · subst hab
          rw [if_pos rfl] at h1
          by_cases hac : a = c
          · subst hac
            rw [if_pos rfl] at h2 ⊢
            exact ih bs cs h1 h2
          · rw [if_neg hac] at h2 ⊢
            exact h2
        · rw [if_neg hab] at h1
          have hlt1 : a < b := of_decide_eq_true h1
          by_cases hbc : b = c
          · subst hbc
            rw [if_neg hab]
            exact decide_eq_true hlt1
          · rw [if_neg hbc] at h2
            have hlt2 : b < c := of_decide_eq_true h2
            have hlt : a < c := lt_trans hlt1 hlt2
            rw [if_neg (ne_of_lt hlt)]
            exact decide_eq_true hlt

instance : IsTotal DEntry nameKeyLe :=
  ⟨fun a b => charListLe_total (lowerData a.name) (lowerData b.name)⟩

instance : IsTrans DEntry nameKeyLe :=
  ⟨fun _ _ _ hab hbc => charListLe_trans _ _ _ hab hbc⟩

/-! ### Claims C3, C7, C8 -/

theorem scanStep_parse_none {acc : List DEntry × List String} {f : DesktopFile}
    (h : DesktopEntry_parse f = none) : scanStep acc f = acc := by
  simp [scanStep, h]

theorem scanStep_parse_some {acc : List DEntry × List String} {f : DesktopFile}
    {e : DEntry} (h : DesktopEntry_parse f = some e) :
    scanStep acc f =
      if e.name ≠ "" ∧ e.exec_cmd ≠ "" ∧ e.name ∉ acc.2 then
        (acc.1 ++ [e], e.name :: acc.2)
      else acc := by
  simp [scanStep, h]

/-- The scan fold is first-seen-wins deduplication (keyed on the exact name
string) over the admitted entries, in file order. -/
theorem foldl_scanStep (files : List DesktopFile) :
    ∀ (apps : List DEntry) (seen : List String),
      (files.foldl scanStep (apps, seen)).1
        = apps ++ dedupFirst (files.filterMap validEntry) seen := by
  induction files with
  | nil => intro apps seen; simp [dedupFirst]
  | cons f fs ih =>
    intro apps seen
    simp only [List.foldl_cons, List.filterMap_cons]
    cases hp : DesktopEntry_parse f with
    | none =>
      rw [scanStep_parse_none hp]
      have hv : validEntry f = none := by simp [validEntry, hp]
      rw [hv]
      exact ih apps seen
    | some e =>
      rw [scanStep_parse_some hp]
      by_cases hvalid : e.name ≠ "" ∧ e.exec_cmd ≠ ""
      · have hv : validEntry f = some e := by simp [validEntry, hp, hvalid.1, hvalid.2]
        rw [hv]
        by_cases hseen : e.name ∈ seen
        · rw [if_neg (by tauto)]
          simp only [dedupFirst, if_pos hseen]
          exact ih apps seen
        · rw [if_pos ⟨hvalid.1, hvalid.2, hseen⟩]
          simp only [dedupFirst, if_neg hseen]
          rw [ih (apps ++ [e]) (e.name :: seen), List.append_assoc]
          rfl
      · have hv : validEntry f = none := by
          simp only [validEntry, hp]
          rw [if_neg hvalid]
        rw [hv, if_neg (by tauto)]
        exact ih apps seen

/-- `dedupFirst` produces pairwise-distinct names, none of them already
seen. -/
theorem dedupFirst_nodup :
    ∀ (l : List DEntry) (seen : List String),
      ((dedupFirst l seen).map (·.name)).Nodup
      ∧ ∀ n ∈ (dedupFirst l seen).map (·.name), n ∉ seen := by
  intro l
  induction l with
  | nil => intro seen; exact ⟨List.nodup_nil, by simp [dedupFirst]⟩
  | cons e es ih =>
    intro seen
    simp only [dedupFirst]
    split
    · exact ih seen
    · rename_i hns
      obtain ⟨ihn, ihs⟩ := ih (e.name :: seen)
      refine ⟨?_, ?_⟩
      · simp only [List.map_cons, List.nodup_cons]
        refine ⟨fun hmem => ?_, ihn⟩
        exact (ihs _ hmem) (List.mem_cons_self _ _)
      · intro n hn
        simp only [List.map_cons, List.mem_cons] at hn
        rcases hn with rfl | hn
        · exact hns
        · exact fun hn' => (ihs _ hn) (List.mem_cons_of_mem _ hn')

/-- **C3, counterexample.** Deduplication is keyed on the exact name, not
case-insensitively: two descriptors named `"Firefox"` and `"FIREFOX"` both
survive into the catalog even though their lowercased names coincide. -/
theorem C3_counterexample :
    get_desktop_files
        [⟨false, true, none, none, some "Firefox", some "firefox", none, none⟩,
         ⟨false, true, none, none, some "FIREFOX", some "firefox2", none, none⟩]
      = [⟨"Firefox", "firefox", "", false⟩, ⟨"FIREFOX", "firefox2", "", false⟩]
    ∧ lowerData "Firefox" = lowerData "FIREFOX" := by decide

/-- **C3, amended.** Deduplication is keyed on the exact (case-sensitive)
`displayName`: the catalog is the stable case-insensitive-ascending sort of
the first-seen-wins exact-name deduplication of the admitted entries in scan
order, and in particular the catalog's names are pairwise distinct as exact
strings (files whose names differ only in casing each contribute an entry,
see `C3_counterexample`). -/
theorem C3_dedup_exact_name (files : List DesktopFile) :
    get_desktop_files files
      = List.insertionSort nameKeyLe (dedupFirst (files.filterMap validEntry) [])
    ∧ ((get_desktop_files files).map (·.name)).Nodup := by
  have h := foldl_scanStep files [] []
  rw [List.nil_append] at h
  constructor
  · unfold get_desktop_files
    rw [h]
  · unfold get_desktop_files
    have hn := (dedupFirst_nodup (files.filterMap validEntry) []).1
    have hp := (List.perm_insertionSort nameKeyLe
      (files.foldl scanStep ([], [])).1).map (·.name)
    refine hp.nodup_iff.mpr ?_
    rw [h]
    exact hn

/-- A descriptor whose `NoDisplay` or `Hidden` value parses to true
contributes nothing to the scan accumulator. -/
theorem scanStep_hidden (f : DesktopFile)
    (h : getboolean f.noDisplayVal false = some true
      ∨ getboolean f.hiddenVal false = some true)
    (acc : List DEntry × List String) : scanStep acc f = acc := by
  by_cases hr : f.readFails = true
  · rw [scanStep_parse_some (e := emptyEntry) (by simp [DesktopEntry_parse, hr])]
    simp [emptyEntry]
  · by_cases hs : f.hasSection = true
    · rcases h with h | h
      · rw [scanStep_parse_some (e := emptyEntry)
          (by simp [DesktopEntry_parse, hr, hs, h])]
        simp [emptyEntry]
      · cases hnd : getboolean f.noDisplayVal false with
        | none => rw [scanStep_parse_none (by simp [DesktopEntry_parse, hr, hs, hnd])]
        | some b =>
          cases b with
          | true =>
            rw [scanStep_parse_some (e := emptyEntry)
              (by simp [DesktopEntry_parse, hr, hs, hnd])]
            simp [emptyEntry]
          | false =>
            rw [scanStep_parse_some (e := emptyEntry)
              (by simp [DesktopEntry_parse, hr, hs, hnd, h])]
            simp [emptyEntry]
    · rw [scanStep_parse_some (e := emptyEntry) (by simp [DesktopEntry_parse, hr, hs])]
      simp [emptyEntry]

/-- **C7.** A descriptor file whose `NoDisplay` or `Hidden` flag is present
and parses to true (any casing of the accepted boolean literals) contributes
no entry: the catalog over any scan sequence containing it equals the
catalog with the file removed, whatever its other fields. -/
theorem C7_hidden_excluded (f : DesktopFile) (l₁ l₂ : List DesktopFile)
    (h : getboolean f.noDisplayVal false = some true
      ∨ getboolean f.hiddenVal false = some true) :
    get_desktop_files (l₁ ++ f :: l₂) = get_desktop_files (l₁ ++ l₂) := by
  unfold get_desktop_files
  have heq : (l₁ ++ f :: l₂).foldl scanStep ([], [])
      = (l₁ ++ l₂).foldl scanStep ([], []) := by
    rw [List.foldl_append, List.foldl_append, List.foldl_cons, scanStep_hidden f h]
  rw [heq]

/-- Witness for `C7_hidden_excluded`: a descriptor with `NoDisplay=TRUE` and
full other fields contributes nothing next to an ordinary descriptor. -/
theorem C7_witness :
    get_desktop_files
        [⟨false, true, none, none, some "beta", some "b", none, none⟩,
         ⟨false, true, some "TRUE", none, some "alpha", some "a", none, none⟩]
      = get_desktop_files [⟨false, true, none, none, some "beta", some "b", none, none⟩] :=
  C7_hidden_excluded ⟨false, true, some "TRUE", none, some "alpha", some "a", none, none⟩
    [⟨false, true, none, none, some "beta", some "b", none, none⟩] []
    (Or.inl (by decide))

/-- **C8.** Every catalog the loader produces is sorted ascending by
case-insensitively lowercased name: each adjacent pair satisfies the
lexicographic comparison of the lowercased names. -/
theorem C8_catalog_sorted (files : List DesktopFile) :
    List.Chain' (fun a b => charListLe (lowerData a.name) (lowerData b.name) = true)
      (get_desktop_files files) := by
  unfold get_desktop_files
  exact List.Pairwise.chain' (List.sorted_insertionSort nameKeyLe _)

/-! ### Claims C5, C9 (cache) -/

/-- **C5.** With an existing, deserializable cache file: strictly below the
3600-second threshold `get()` returns the cached catalog without invoking
the loader (and writes nothing); strictly above it the loader runs and the
fresh catalog is returned (with a write attempt).  The claim's sample ages
59m59s = 3599 s and 60m01s = 3601 s fall in these two regimes
(see `C5_witness`). -/
theorem C5_freshness_boundary (env : CacheEnv) (c : List DEntry)
    (hex : env.cacheExists = true) (hread : env.readResult = some c) :
    (env.now - env.mtime < 3600 →
      get_desktop_files_cached env = ⟨c, false, false⟩)
    ∧ (3600 < env.now - env.mtime →
      get_desktop_files_cached env = ⟨env.loaded, true, env.writeOk⟩) := by
  constructor
  · intro hfresh
    simp [get_desktop_files_cached, hex, hfresh, hread]
  · intro hstale
    have : ¬ env.now - env.mtime < 3600 := by omega
    simp [get_desktop_files_cached, hex, this]

/-- Witness for `C5_freshness_boundary`: age 3599 s serves the cache, age
3601 s rebuilds. -/
theorem C5_witness :
    get_desktop_files_cached ⟨true, 10000, 6401, some [emptyEntry], [], true⟩
      = ⟨[emptyEntry], false, false⟩
    ∧ get_desktop_files_cached ⟨true, 10000, 6399, some [emptyEntry], [], true⟩
      = ⟨[], true, true⟩ :=
  ⟨(C5_freshness_boundary ⟨true, 10000, 6401, some [emptyEntry], [], true⟩
      [emptyEntry] rfl rfl).1 (by decide),
    (C5_freshness_boundary ⟨true, 10000, 6399, some [emptyEntry], [], true⟩
      [emptyEntry] rfl rfl).2 (by decide)⟩

/-- `get_desktop_files_cached` takes exactly one of two paths: the miss path
(loader invoked, fresh catalog, write attempted) or the hit path (cached
catalog, no loader, no write). -/
theorem cached_cases (env : CacheEnv) :
    get_desktop_files_cached env = ⟨env.loaded, true, env.writeOk⟩
    ∨ ∃ c, env.readResult = some c
        ∧ get_desktop_files_cached env = ⟨c, false, false⟩ := by
  unfold get_desktop_files_cached
  by_cases hex : env.cacheExists = true
  · by_cases hfresh : env.now - env.mtime < 3600
    · cases hr : env.readResult with
      | none =>
        left
        simp [hex, hfresh, hr]
      | some c =>
        right
        exact ⟨c, rfl, by simp [hex, hfresh, hr]⟩
    · left
      simp [hex, hfresh]
  · left
    simp [hex]

/-- **C9.** `get()` totalises bad caches: a failed read/deserialization is a
miss that invokes the loader and returns the fresh catalog; whenever the
loader runs its catalog is what the caller receives; and the returned
catalog and the loader decision never depend on whether the cache write
succeeds. -/
theorem C9_cache_error_recovery (env : CacheEnv) :
    (env.readResult = none →
      (get_desktop_files_cached env).result = env.loaded
      ∧ (get_desktop_files_cached env).loaderInvoked = true)
    ∧ ((get_desktop_files_cached env).loaderInvoked = true →
      (get_desktop_files_cached env).result = env.loaded)
    ∧ (∀ w : Bool,
      (get_desktop_files_cached
        (CacheEnv.mk env.cacheExists env.now env.mtime env.readResult env.loaded w)).result
        = (get_desktop_files_cached env).result
      ∧ (get_desktop_files_cached
        (CacheEnv.mk env.cacheExists env.now env.mtime env.readResult env.loaded w)).loaderInvoked
        = (get_desktop_files_cached env).loaderInvoked) := by
  refine ⟨?_, ?_, ?_⟩
  · intro hnone
    rcases cached_cases env with h | ⟨c, hc, h⟩
    · rw [h]
      exact ⟨rfl, rfl⟩
    · rw [hnone] at hc
      cases hc
  · intro hinv
    rcases cached_cases env with h | ⟨c, hc, h⟩
    · rw [h]
    · rw [h] at hinv
      cases hinv
  · intro w
    unfold get_desktop_files_cached
    by_cases hex : env.cacheExists = true <;>
      by_cases hfresh : env.now - env.mtime < 3600 <;>
      cases hr : env.readResult <;>
      simp [hex, hfresh, hr]

/-- Witness for `C9_cache_error_recovery`: a fresh but corrupt cache file
falls through to the loader. -/
theorem C9_witness :
    (get_desktop_files_cached ⟨true, 100, 50, none, [emptyEntry], false⟩).result
      = [emptyEntry]
    ∧ (get_desktop_files_cached ⟨true, 100, 50, none, [emptyEntry], false⟩).loaderInvoked
      = true :=
  (C9_cache_error_recovery ⟨true, 100, 50, none, [emptyEntry], false⟩).1 rfl

/-! ### Claim C6 (launch command cleaning) -/

/-- **C6, code evaluation.** `launch` truncates the declared command at the
first `%`: for `"prog %U --flag"` everything after the field code is lost
(the claim's fixed-token stripping would give `"prog  --flag"`), and a
literal `%` that is not a field code, as in `"echo 50% off"`, still
truncates the command. -/
theorem C6_percent_truncation :
    launch ⟨"prog", "prog %U --flag", "", false⟩ = some "prog"
    ∧ launch_cmd "prog %U --flag" ≠ "prog  --flag"
    ∧ launch_cmd "echo 50% off" = "echo 50"
    ∧ launch_cmd "echo 50% off" ≠ "echo 50% off" := by decide

/-! ### Claim C10 (guarded index access) -/

/-- **C10.** `launch_selected_app` returns `False` and launches nothing when
the filtered list is empty or the index falls outside `[0, length)`; for
every in-range index it returns `True` and launches exactly the entry at
that position — the list access is guarded and always in bounds. -/
theorem C10_guarded_launch (apps : List DEntry) (i : Int) :
    ((apps = [] ∨ i < 0 ∨ (apps.length : Int) ≤ i) →
      launch_selected_app apps i = (false, none))
    ∧ (0 ≤ i → i < (apps.length : Int) →
      launch_selected_app apps i = (true, apps.get? i.toNat)
      ∧ ∃ e : DEntry, apps.get? i.toNat = some e) := by
  constructor
  · intro h
    unfold launch_selected_app
    rw [if_neg]
    rintro ⟨hne, hlo, hhi⟩
    rcases h with h | h | h
    · exact hne h
    · omega
    · omega
  · intro hlo hhi
    have hne : apps ≠ [] := by
      intro h
      subst h
      simp at hhi
      omega
    constructor
    · unfold launch_selected_app
      rw [if_pos ⟨hne, hlo, hhi⟩]
    · have hlt : i.toNat < apps.length := by omega
      exact ⟨apps.get ⟨i.toNat, hlt⟩, List.get?_eq_get hlt⟩

/-- Witness for `C10_guarded_launch`: a singleton list with the in-range
index 0 launches its entry; index 5 is rejected. -/
theorem C10_witness :
    launch_selected_app [emptyEntry] 0 = (true, [emptyEntry].get? (0 : Int).toNat)
    ∧ launch_selected_app [emptyEntry] 5 = (false, none) :=
  ⟨((C10_guarded_launch [emptyEntry] 0).2 (by decide) (by decide)).1,
    (C10_guarded_launch [emptyEntry] 5).1 (Or.inr (Or.inr (by decide)))⟩

end Gell
